import Mathlib

/-
Verification development for the clause segmentation / matching engine of
`streamlit_app.py` (a Chinese-document clause compliance tool).

Embedding conventions:
* Python strings are `List Char`; a clause is such a list.  Python string
  slicing, `str.strip`, `re.split` on the sentence-punctuation class, and the
  eight structural clause patterns of `split_into_clauses` are embedded
  directly as executable Lean functions on `List Char`.
* Python floats are embedded as `ℚ` (every quantity produced by the code is a
  ratio of small integers).
* `difflib.SequenceMatcher.ratio` (standard library) is embedded by its
  documented algorithm: recursive leftmost-longest matching blocks found by
  the longest-common-suffix dynamic program, total matched elements M, and
  ratio 2M/(len a + len b).  The autojunk heuristic, which only activates when
  the second token sequence has at least 200 elements, is not modelled; below
  that bound the embedding was cross-checked against the reference
  implementation on several hundred random inputs.
* `jieba.cut` is an external dictionary-based tokenizer; it enters
  `chinese_text_similarity` only through the token lists it produces, so the
  similarity function is parameterised by an arbitrary tokenizer
  `tok : List Char → List (List Char)`.  `asciiTok` is the concrete model of
  its behaviour on ASCII word/space text (maximal ASCII runs are single
  tokens, each space character is its own token), used for concrete runs.
* Loops whose termination is part of what is being verified
  (`chunk_large_document`) take an explicit fuel argument; `none` means the
  loop was still running when the fuel ran out, so `∀ fuel, ... = none`
  expresses non-termination.  Elsewhere fuel is a structural-recursion
  device with an adequate budget baked in.
* Match pairs carry the two clause indices as ghost data next to the clause
  texts that the Python tuples hold; the indices are determined by the run
  and make the at-most-once statements expressible.
-/

abbrev Clause := List Char

/-! ## Python text primitives -/

/-- Whitespace test covering the Python `str.strip` / `\s` characters that
occur in this development: ASCII whitespace and the CJK ideographic space. -/
def isPySpace (c : Char) : Bool :=
  c == ' ' || c == '\t' || c == '\n' || c == '\r' ||
  c == Char.ofNat 11 || c == Char.ofNat 12 || c == Char.ofNat 0x3000

/-- Python `str.strip()`. -/
def pyStrip (s : List Char) : List Char :=
  ((s.dropWhile isPySpace).reverse.dropWhile isPySpace).reverse

/-- Python slicing `l[a:b]` for integer bounds (negative indices count from
the end, out-of-range bounds are clamped). -/
def pySlice (l : List Char) (a b : ℤ) : List Char :=
  let n : ℤ := l.length
  let lo : ℤ := if a < 0 then max (n + a) 0 else min a n
  let hi : ℤ := if b < 0 then max (n + b) 0 else min b n
  (l.drop lo.toNat).take (hi - lo).toNat

/-! ## difflib.SequenceMatcher (no-junk model)

`runLen a b i j` is the length of the longest common block of `a` and `b`
ending at positions `i`, `j` — the value the `j2len` dynamic program of
`find_longest_match` stores.  `findLongestMatch` scans all position pairs in
the same order as the reference implementation (first index ascending, then
second index ascending) keeping the first strictly-larger run, which yields
the leftmost-longest matching block.  `matchingTotalF` is
`get_matching_blocks`: it recurses on the regions left and right of that
block and sums the matched elements. -/

def commonPrefixLen {α : Type} [DecidableEq α] : List α → List α → ℕ
  | x :: xs, y :: ys => if x = y then commonPrefixLen xs ys + 1 else 0
  | _, _ => 0

def commonSuffixLen {α : Type} [DecidableEq α] (x y : List α) : ℕ :=
  commonPrefixLen x.reverse y.reverse

def runLen {α : Type} [DecidableEq α] (a b : List α) (i j : ℕ) : ℕ :=
  commonSuffixLen (a.take (i + 1)) (b.take (j + 1))

def lexPairs (la lb : ℕ) : List (ℕ × ℕ) :=
  ((List.range la).map (fun i => (List.range lb).map (fun j => (i, j)))).flatten

def flmStep {α : Type} [DecidableEq α] (a b : List α) (best : ℕ × ℕ × ℕ) (p : ℕ × ℕ) :
    ℕ × ℕ × ℕ :=
  let k := runLen a b p.1 p.2
  if best.2.2 < k then (p.1, p.2, k) else best

def findLongestMatch {α : Type} [DecidableEq α] (a b : List α) : ℕ × ℕ × ℕ :=
  let best := (lexPairs a.length b.length).foldl (flmStep a b) (0, 0, 0)
  if best.2.2 = 0 then (0, 0, 0)
  else (best.1 + 1 - best.2.2, best.2.1 + 1 - best.2.2, best.2.2)

def matchingTotalF {α : Type} [DecidableEq α] : ℕ → List α → List α → ℕ
  | 0, _, _ => 0
  | fuel + 1, a, b =>
    let m := findLongestMatch a b
    if m.2.2 = 0 then 0
    else
      matchingTotalF fuel (a.take m.1) (b.take m.2.1) + m.2.2 +
      matchingTotalF fuel (a.drop (m.1 + m.2.2)) (b.drop (m.2.1 + m.2.2))

/-- Total number of matched elements over all matching blocks; recursion
depth is bounded by the length of the first sequence, so this fuel budget is
always adequate. -/
def matchingTotal {α : Type} [DecidableEq α] (a b : List α) : ℕ :=
  matchingTotalF (a.length + 1) a b

/-- `SequenceMatcher(None, a, b).ratio()`: `2M/T`, or 1 when both sequences
are empty.  The value is built with `mkRat` (kernel-executable); the lemma
`ratioTok_eq_div` states the textbook division form. -/
def ratioTok {α : Type} [DecidableEq α] (a b : List α) : ℚ :=
  if a.length + b.length = 0 then 1
  else mkRat (2 * (matchingTotal a b : ℤ)) (a.length + b.length)

/-- Executable multiplication of rationals; `ratMul_eq` identifies it with
`*`. -/
def ratMul (a b : ℚ) : ℚ := mkRat (a.num * b.num) (a.den * b.den)

/-- The matching threshold 0.25 of `match_clauses`. -/
def matchThreshold : ℚ := mkRat 1 4

/-! ## chinese_text_similarity -/

/-- Python `\w` for the character classes appearing here (ASCII word
characters and CJK ideographs). -/
def isPyWord (c : Char) : Bool :=
  c.isAlphanum || c == '_' || (0x4E00 ≤ c.toNat && c.toNat ≤ 0x9FFF)

/-- The `re.sub(r'[^\w\s]', '', text)` cleaning step. -/
def cleanForSim (s : List Char) : List Char :=
  s.filter (fun c => isPyWord c || isPySpace c)

/-- `chinese_text_similarity(text1, text2)`: clean both strings, tokenize with
the external tokenizer `tok` (the `jieba.cut` call), and take the
SequenceMatcher ratio of the token sequences. -/
def chinese_text_similarity (tok : List Char → List (List Char)) (t1 t2 : List Char) : ℚ :=
  ratioTok (tok (cleanForSim t1)) (tok (cleanForSim t2))

/-- Concrete model of the external tokenizer on ASCII word/space text: a
maximal run of non-space characters is one token, each space character is its
own token (helper with the current word accumulated in reverse). -/
def asciiTokGo : List Char → List Char → List (List Char)
  | cur, [] => if cur.isEmpty then [] else [cur.reverse]
  | cur, c :: rest =>
    if c == ' ' then
      (if cur.isEmpty then [] else [cur.reverse]) ++ [' '] :: asciiTokGo [] rest
    else asciiTokGo (c :: cur) rest

def asciiTok (l : List Char) : List (List Char) := asciiTokGo [] l

/-- The similarity function with the concrete ASCII tokenizer model, used for
concrete runs of the matcher. -/
def simModel : Clause → Clause → ℚ := chinese_text_similarity asciiTok

/-! ## extract_key_terms -/

def cjkNumChar (c : Char) : Bool :=
  ['一', '二', '三', '四', '五', '六', '七', '八', '九', '十', '百', '千'].contains c

def cjkNum10Char (c : Char) : Bool :=
  ['一', '二', '三', '四', '五', '六', '七', '八', '九', '十'].contains c

/-- `re.findall(r'第[一二三四五六七八九十百千]+条', text)`: leftmost
non-overlapping occurrences.  Fuel is the text length; each recursive call
consumes at least one character. -/
def scanArticleNums : ℕ → List Char → List (List Char)
  | 0, _ => []
  | _, [] => []
  | fuel + 1, c :: rest =>
    if c = '第' then
      let nums := rest.takeWhile cjkNumChar
      match nums, rest.dropWhile cjkNumChar with
      | _ :: _, d :: rest3 =>
        if d = '条' then ('第' :: (nums ++ ['条'])) :: scanArticleNums fuel rest3
        else scanArticleNums fuel rest
      | _, _ => scanArticleNums fuel rest
    else scanArticleNums fuel rest

/-- `re.findall(r'【[^】]+】', text)`. -/
def scanBracketTerms : ℕ → List Char → List (List Char)
  | 0, _ => []
  | _, [] => []
  | fuel + 1, c :: rest =>
    if c = '【' then
      let body := rest.takeWhile (fun d => !(d == '】'))
      match body, rest.dropWhile (fun d => !(d == '】')) with
      | _ :: _, _ :: rest3 =>
        ('【' :: (body ++ ['】'])) :: scanBracketTerms fuel rest3
      | _, _ => scanBracketTerms fuel rest
    else scanBracketTerms fuel rest

/-- `extract_key_terms(text)`: the set union of clause-number tokens and
bracket-delimited header tokens. -/
def extract_key_terms (s : List Char) : Finset (List Char) :=
  (scanArticleNums s.length s ++ scanBracketTerms s.length s).toFinset

/-! ## split_into_clauses

Each of the eight structural patterns has the shape
`(MARKER …lazy fill…)(?=MARKER|$)` with `re.DOTALL`, so a `findall` run
produces the text segments between successive marker occurrences, where the
next marker is searched from the end of the previous marker's greedily
consumed prefix.  `markerRest p s` matches the marker (with its trailing
`\s*`/colon parts) at the head of `s` and returns the remaining suffix. -/

inductive Pat
  | art | cnum | dnum | parenC | parenD | fwLetter | bracket | clauseK
deriving DecidableEq

def wsDrop (s : List Char) : List Char := s.dropWhile isPySpace

/-- The optional `(?:之[一二三四五六七八九十]+)?` part of the article
pattern. -/
def zhiOpt (s : List Char) : List Char :=
  match s with
  | c :: rest =>
    if c = '之' then
      if (rest.takeWhile cjkNum10Char).isEmpty then s
      else rest.dropWhile cjkNum10Char
    else s
  | [] => s

/-- The optional `[:：]?` part of the article pattern. -/
def colonOpt (s : List Char) : List Char :=
  match s with
  | c :: rest => if c = ':' ∨ c = '：' then rest else s
  | [] => s

def isNonzeroDigit (c : Char) : Bool := '1' ≤ c && c ≤ '9'

def isFwLetter (c : Char) : Bool :=
  (0xFF21 ≤ c.toNat && c.toNat ≤ 0xFF3A) || (0xFF41 ≤ c.toNat && c.toNat ≤ 0xFF5A)

def markerRest (p : Pat) (s : List Char) : Option (List Char) :=
  match s with
  | [] => none
  | c :: rest =>
    match p with
    | .art =>
      if c = '第' then
        if (rest.takeWhile cjkNumChar).isEmpty then none else
        match rest.dropWhile cjkNumChar with
        | d :: rest3 =>
          if d = '条' then some (wsDrop (colonOpt (wsDrop (zhiOpt rest3)))) else none
        | [] => none
      else none
    | .cnum =>
      if (s.takeWhile cjkNumChar).isEmpty then none else
      match s.dropWhile cjkNumChar with
      | d :: rest2 => if d = '、' then some (wsDrop rest2) else none
      | [] => none
    | .dnum =>
      if (s.takeWhile Char.isDigit).isEmpty then none else
      match s.dropWhile Char.isDigit with
      | d :: rest2 => if d = '.' then some (wsDrop rest2) else none
      | [] => none
    | .parenC =>
      if c = '(' then
        let r1 := wsDrop rest
        if (r1.takeWhile cjkNum10Char).isEmpty then none else
        match wsDrop (r1.dropWhile cjkNum10Char) with
        | d :: rest2 => if d = ')' then some (wsDrop rest2) else none
        | [] => none
      else none
    | .parenD =>
      if c = '(' then
        let r1 := wsDrop rest
        if (r1.takeWhile isNonzeroDigit).isEmpty then none else
        match wsDrop ((r1.dropWhile isNonzeroDigit).dropWhile Char.isDigit) with
        | d :: rest2 => if d = ')' then some (wsDrop rest2) else none
        | [] => none
      else none
    | .fwLetter =>
      if isFwLetter c then
        match rest with
        | d :: rest2 => if d = '.' then some (wsDrop rest2) else none
        | [] => none
      else none
    | .bracket =>
      if c = '【' then
        if (rest.takeWhile (fun d => !(d == '】'))).isEmpty then none else
        match rest.dropWhile (fun d => !(d == '】')) with
        | _ :: rest2 => some (wsDrop rest2)
        | [] => none
      else none
    | .clauseK =>
      if c = '第' then
        if (rest.takeWhile cjkNumChar).isEmpty then none else
        match rest.dropWhile cjkNumChar with
        | d :: rest3 => if d = '款' then some (wsDrop rest3) else none
        | [] => none
      else none

/-- Offset of the first marker occurrence in `s` together with the suffix
remaining after the marker's consumed prefix. -/
def findMarker (p : Pat) : List Char → Option (ℕ × List Char)
  | [] => none
  | s =>
    match markerRest p s with
    | some r => some (0, r)
    | none =>
      match s with
      | [] => none
      | _ :: rest =>
        match findMarker p rest with
        | some (q, r) => some (q + 1, r)
        | none => none

/-- Cut the text at successive marker occurrences; the head of `s` carries a
marker.  Fuel is adequate because every marker consumes at least one
character. -/
def segGo (p : Pat) : ℕ → List Char → List (List Char)
  | 0, _ => []
  | fuel + 1, s =>
    match markerRest p s with
    | none => []
    | some r =>
      match findMarker p r with
      | none => [s]
      | some (q, _) =>
        s.take (s.length - r.length + q) :: segGo p fuel (s.drop (s.length - r.length + q))

/-- `re.findall(pattern, text, re.DOTALL)` for one structural pattern. -/
def patternSegs (p : Pat) (text : List Char) : List (List Char) :=
  match findMarker p text with
  | none => []
  | some (q, _) => segGo p (text.length + 1) (text.drop q)

/-- One pattern's clause list after the `clause.strip()` length filter. -/
def patternClauses (p : Pat) (text : List Char) : List (List Char) :=
  (patternSegs p text).filterMap (fun cl =>
    if pyStrip cl ≠ [] ∧ 10 < (pyStrip cl).length then some (pyStrip cl) else none)

def allPatterns : List Pat :=
  [.art, .cnum, .dnum, .parenC, .parenD, .fwLetter, .bracket, .clauseK]

def patternResults (text : List Char) : List (List (List Char)) :=
  allPatterns.map (fun p => patternClauses p text)

/-- The best-clauses selection step: keep the new result when it is strictly
longer than the current best and has more than 2 clauses. -/
def selStep (best r : List (List Char)) : List (List Char) :=
  if best.length < r.length ∧ 2 < r.length then r else best

def bestClausesSel (results : List (List (List Char))) : List (List Char) :=
  results.foldl selStep []

def isSepChar (c : Char) : Bool := c == '。' || c == '；' || c == '！' || c == '？'

/-- `re.split(r'[。；！？]\s*', text)` (current piece accumulated in
reverse; fuel is the text length). -/
def splitParaGo : ℕ → List Char → List Char → List (List Char)
  | 0, cur, _ => [cur.reverse]
  | _, cur, [] => [cur.reverse]
  | fuel + 1, cur, c :: rest =>
    if isSepChar c then cur.reverse :: splitParaGo fuel [] (wsDrop rest)
    else splitParaGo fuel (c :: cur) rest

def splitPara (text : List Char) : List (List Char) :=
  splitParaGo (text.length + 1) [] text

/-- The punctuation-paragraph candidates: note the filter tests the length of
the unstripped piece but emits the stripped piece, exactly as the list
comprehension in the source does. -/
def paraCandidates (text : List Char) : List (List Char) :=
  (splitPara text).filterMap (fun pg =>
    if pyStrip pg ≠ [] ∧ 10 < pg.length then some (pyStrip pg) else none)

/-- The fixed-length 1000-character chunking used as the last resort. -/
def chunkFallback (text : List Char) : List (List Char) :=
  (List.range ((text.length + 999) / 1000)).map (fun k => (text.drop (1000 * k)).take 1000)

/-- The fallback taken when no pattern produced more than 2 clauses. -/
def paraFallback (text : List Char) : List (List Char) :=
  let paragraphs := paraCandidates text
  if paragraphs.length < 3 ∧ 5000 < text.length then chunkFallback text else paragraphs

/-- `split_into_clauses(text)`: try all eight patterns, keep the best result
clearing the bar, otherwise fall back to punctuation paragraphs or
fixed-length chunks. -/
def split_into_clauses (text : List Char) : List (List Char) :=
  let best := bestClausesSel (patternResults text)
  if best ≠ [] then best else paraFallback text

/-! ## chunk_large_document -/

/-- The `while start < text_length` loop of `chunk_large_document`: append
`text[start:start+chunk_size]`, then advance `start` by
`chunk_size - overlap` (the mid-loop `break` tests the same condition as the
loop head).  `none` means the fuel budget was exhausted while the loop was
still running. -/
def chunkLoop (text : List Char) (chunk_size overlap : ℤ) :
    ℕ → ℤ → List (List Char) → Option (List (List Char))
  | 0, start, acc => if start < (text.length : ℤ) then none else some acc
  | fuel + 1, start, acc =>
    if start < (text.length : ℤ) then
      chunkLoop text chunk_size overlap fuel (start + chunk_size - overlap)
        (acc ++ [pySlice text start (start + chunk_size)])
    else some acc

/-- `chunk_large_document(text, chunk_size, overlap)` with the canonical fuel
budget `len(text) + 1`, which is adequate whenever `overlap < chunk_size`. -/
def chunk_large_document (text : List Char) (chunk_size overlap : ℤ) :
    Option (List (List Char)) :=
  chunkLoop text chunk_size overlap (text.length + 1) 0 []

/-! ## match_clauses -/

/-- One matched pair: the Python tuple `(clause1, best_match, best_ratio)`
extended with the two clause indices of the run as ghost data. -/
structure MPair where
  li : ℕ
  lc : Clause
  rj : ℕ
  rc : Clause
  score : ℚ
deriving DecidableEq

/-- `term_matches[i]`: the right indices sharing at least one extracted term
with the left clause, with their overlap counts, in index order. -/
def termOverlapList (t1 : Finset Clause) (terms2 : List (Finset Clause)) : List (ℕ × ℕ) :=
  (List.range terms2.length).filterMap (fun j =>
    let ov := (t1 ∩ terms2.getD j ∅).card
    if 0 < ov then some (j, ov) else none)

/-- Stable insertion for the descending sort by overlap count
(`sorted(..., key=lambda x: x[1], reverse=True)`). -/
def insertDescSnd (x : ℕ × ℕ) : List (ℕ × ℕ) → List (ℕ × ℕ)
  | [] => [x]
  | y :: ys => if y.2 ≤ x.2 then x :: y :: ys else y :: insertDescSnd x ys

def sortByOverlapDesc (l : List (ℕ × ℕ)) : List (ℕ × ℕ) := l.foldr insertDescSnd []

/-- The candidate list for one left clause: unconsumed term-sharing right
indices by descending overlap first, otherwise every unconsumed right
index. -/
def candidates (tl : List (ℕ × ℕ)) (used : Finset ℕ) (len2 : ℕ) : List ℕ :=
  let ct := ((sortByOverlapDesc tl).map Prod.fst).filter (fun j => decide (j ∉ used))
  if ct ≠ [] then ct else (List.range len2).filter (fun j => decide (j ∉ used))

/-- The boosted score of candidate `j`: raw similarity, lifted by the factor
1.1 (capped at 1, i.e. `min(1.0, ratio * 1.1)`) when `j` shares at least one
extracted term with the left clause; `boostedScore_eq` states the source's
arithmetic form. -/
def boostedScore (sim : Clause → Clause → ℚ) (tl : List (ℕ × ℕ)) (c1 : Clause)
    (clauses2 : List Clause) (j : ℕ) : ℚ :=
  let r := sim c1 (clauses2.getD j [])
  if (tl.map Prod.fst).contains j then min 1 (ratMul r (mkRat 11 10)) else r

/-- The inner scoring loop: state is `(best_ratio, best_j)` starting at the
threshold `0.25` with no best match; a candidate wins only with a strictly
larger boosted score. -/
def bcStep (sim : Clause → Clause → ℚ) (tl : List (ℕ × ℕ)) (c1 : Clause)
    (clauses2 : List Clause) (st : ℚ × Option ℕ) (j : ℕ) : ℚ × Option ℕ :=
  let r := boostedScore sim tl c1 clauses2 j
  if st.1 < r then (r, some j) else st

def bestCandidate (sim : Clause → Clause → ℚ) (tl : List (ℕ × ℕ)) (c1 : Clause)
    (clauses2 : List Clause) (cands : List ℕ) : ℚ × Option ℕ :=
  cands.foldl (bcStep sim tl c1 clauses2) (matchThreshold, none)

/-- Processing of one left clause `(i, clause1)`: build the candidate list,
score it, and record a pair when a best match was found — guarded, as in the
source, by the truthiness of the best match string, so an empty best clause
records nothing. -/
def matchStep (sim : Clause → Clause → ℚ) (clauses2 : List Clause) (tl : List (ℕ × ℕ))
    (st : List MPair × Finset ℕ) (ic : ℕ × Clause) : List MPair × Finset ℕ :=
  let cands := candidates tl st.2 clauses2.length
  let bb := bestCandidate sim tl ic.2 clauses2 cands
  match bb.2 with
  | none => st
  | some j =>
    if clauses2.getD j [] ≠ [] then
      (st.1 ++ [⟨ic.1, ic.2, j, clauses2.getD j [], bb.1⟩], insert j st.2)
    else st

/-- `match_clauses(clauses1, clauses2)` with the similarity function (the
`chinese_text_similarity` call) as a parameter.  The unmatched-left list is
the source's comprehension verbatim: indices not among
`[idx for idx, _ in enumerate(matched_pairs)]`. -/
def match_clauses (sim : Clause → Clause → ℚ) (clauses1 clauses2 : List Clause) :
    List MPair × List Clause × List Clause :=
  let terms1 := clauses1.map extract_key_terms
  let terms2 := clauses2.map extract_key_terms
  let final := clauses1.enum.foldl
    (fun st ic => matchStep sim clauses2 (termOverlapList (terms1.getD ic.1 ∅) terms2) st ic)
    ([], ∅)
  let matchedIdx := final.1.enum.map Prod.fst
  let unmatched1 := (clauses1.enum.filter (fun pr => decide (pr.1 ∉ matchedIdx))).map Prod.snd
  let unmatched2 := (clauses2.enum.filter (fun pr => decide (pr.1 ∉ final.2))).map Prod.snd
  (final.1, unmatched1, unmatched2)

/-! ## Lemmas: SequenceMatcher -/

theorem commonPrefixLen_self {α : Type} [DecidableEq α] (l : List α) :
    commonPrefixLen l l = l.length := by
  induction l with
  | nil => rfl
  | cons x xs ih => simp [commonPrefixLen, ih]

theorem commonPrefixLen_le_left {α : Type} [DecidableEq α] :
    ∀ (x y : List α), commonPrefixLen x y ≤ x.length
  | [], _ => by simp [commonPrefixLen]
  | _ :: _, [] => by simp [commonPrefixLen]
  | x :: xs, y :: ys => by
    simp only [commonPrefixLen, List.length_cons]
    split
    · exact Nat.succ_le_succ (commonPrefixLen_le_left xs ys)
    · exact Nat.zero_le _

theorem commonPrefixLen_le_right {α : Type} [DecidableEq α] :
    ∀ (x y : List α), commonPrefixLen x y ≤ y.length
  | [], _ => by simp [commonPrefixLen]
  | _ :: _, [] => by simp [commonPrefixLen]
  | x :: xs, y :: ys => by
    simp only [commonPrefixLen, List.length_cons]
    split
    · exact Nat.succ_le_succ (commonPrefixLen_le_right xs ys)
    · exact Nat.zero_le _

theorem runLen_le_left {α : Type} [DecidableEq α] (a b : List α) (i j : ℕ) :
    runLen a b i j ≤ i + 1 := by
  unfold runLen commonSuffixLen
  refine le_trans (commonPrefixLen_le_left _ _) ?_
  rw [List.length_reverse, List.length_take]
  exact min_le_left _ _

theorem runLen_le_right {α : Type} [DecidableEq α] (a b : List α) (i j : ℕ) :
    runLen a b i j ≤ j + 1 := by
  unfold runLen commonSuffixLen
  refine le_trans (commonPrefixLen_le_right _ _) ?_
  rw [List.length_reverse, List.length_take]
  exact min_le_left _ _

theorem lexPairs_mem (la lb : ℕ) (p : ℕ × ℕ) :
    p ∈ lexPairs la lb ↔ p.1 < la ∧ p.2 < lb := by
  obtain ⟨x, y⟩ := p
  constructor
  · intro h
    simp only [lexPairs, List.mem_flatten, List.mem_map, List.mem_range] at h
    obtain ⟨l, ⟨i, hi, rfl⟩, hp⟩ := h
    obtain ⟨j, hj, hpj⟩ := List.mem_map.mp hp
    obtain ⟨rfl, rfl⟩ := Prod.mk.injEq .. |>.mp hpj
    exact ⟨hi, List.mem_range.mp hj⟩
  · rintro ⟨h1, h2⟩
    simp only [lexPairs, List.mem_flatten, List.mem_map, List.mem_range]
    exact ⟨_, ⟨x, h1, rfl⟩, List.mem_map.mpr ⟨y, List.mem_range.mpr h2, rfl⟩⟩

theorem flmFold_snd_le {α : Type} [DecidableEq α] (a b : List α) :
    ∀ (pairs : List (ℕ × ℕ)) (init : ℕ × ℕ × ℕ),
      init.2.2 ≤ (pairs.foldl (flmStep a b) init).2.2
  | [], _ => le_refl _
  | p :: ps, init => by
    rw [List.foldl_cons]
    refine le_trans ?_ (flmFold_snd_le a b ps (flmStep a b init p))
    simp only [flmStep]
    split
    · next h => exact le_of_lt h
    · exact le_refl _

theorem flmFold_ge {α : Type} [DecidableEq α] (a b : List α) :
    ∀ (pairs : List (ℕ × ℕ)) (init : ℕ × ℕ × ℕ) (p : ℕ × ℕ), p ∈ pairs →
      runLen a b p.1 p.2 ≤ (pairs.foldl (flmStep a b) init).2.2
  | [], _, p, h => absurd h (List.not_mem_nil p)
  | q :: ps, init, p, h => by
    rw [List.foldl_cons]
    rcases List.mem_cons.mp h with rfl | h'
    · refine le_trans ?_ (flmFold_snd_le a b ps (flmStep a b init p))
      simp only [flmStep]
      split
      · exact le_refl _
      · next hlt => exact Nat.le_of_not_lt hlt
    · exact flmFold_ge a b ps (flmStep a b init q) p h'

theorem flmFold_sound {α : Type} [DecidableEq α] (a b : List α) :
    ∀ (pairs : List (ℕ × ℕ)) (init : ℕ × ℕ × ℕ),
      pairs.foldl (flmStep a b) init = init ∨
      ∃ p ∈ pairs, pairs.foldl (flmStep a b) init = (p.1, p.2, runLen a b p.1 p.2)
  | [], _ => Or.inl rfl
  | q :: ps, init => by
    rw [List.foldl_cons]
    rcases flmFold_sound a b ps (flmStep a b init q) with h | ⟨p, hp, h⟩
    · by_cases hlt : init.2.2 < runLen a b q.1 q.2
      · right
        refine ⟨q, List.mem_cons_self q ps, ?_⟩
        rw [h]; simp [flmStep, hlt]
      · left
        rw [h]; simp [flmStep, hlt]
    · right
      exact ⟨p, List.mem_cons_of_mem _ hp, h⟩

theorem findLongestMatch_spec {α : Type} [DecidableEq α] (a b : List α) :
    findLongestMatch a b = (0, 0, 0) ∨
    ∃ i j, i < a.length ∧ j < b.length ∧ 0 < runLen a b i j ∧
      findLongestMatch a b = (i + 1 - runLen a b i j, j + 1 - runLen a b i j, runLen a b i j) := by
  rcases flmFold_sound a b (lexPairs a.length b.length) (0, 0, 0) with h | ⟨p, hp, h⟩
  · left
    unfold findLongestMatch
    rw [h]
    rfl
  · by_cases hz : runLen a b p.1 p.2 = 0
    · left
      unfold findLongestMatch
      rw [h]
      simp [hz]
    · right
      obtain ⟨h1, h2⟩ := (lexPairs_mem a.length b.length p).mp hp
      refine ⟨p.1, p.2, h1, h2, Nat.pos_of_ne_zero hz, ?_⟩
      unfold findLongestMatch
      rw [h]
      simp [hz]

theorem findLongestMatch_self {α : Type} [DecidableEq α] (l : List α) (h : l ≠ []) :
    findLongestMatch l l = (0, 0, l.length) := by
  have hlen : 0 < l.length := List.length_pos.mpr h
  have hmem : ((l.length - 1, l.length - 1) : ℕ × ℕ) ∈ lexPairs l.length l.length :=
    (lexPairs_mem _ _ _).mpr ⟨by omega, by omega⟩
  have hrun : runLen l l (l.length - 1) (l.length - 1) = l.length := by
    unfold runLen commonSuffixLen
    rw [Nat.sub_add_cancel hlen, List.take_length, commonPrefixLen_self, List.length_reverse]
  have hge := flmFold_ge l l (lexPairs l.length l.length) (0, 0, 0) _ hmem
  rw [hrun] at hge
  rcases flmFold_sound l l (lexPairs l.length l.length) (0, 0, 0) with hs | ⟨p, hp, hs⟩
  · rw [hs] at hge
    have hge2 : l.length ≤ 0 := hge
    omega
  · rw [hs] at hge
    have hge2 : l.length ≤ runLen l l p.1 p.2 := hge
    have hle1 := runLen_le_left l l p.1 p.2
    have hle2 := runLen_le_right l l p.1 p.2
    obtain ⟨hp1, hp2⟩ := (lexPairs_mem _ _ _).mp hp
    have hk : runLen l l p.1 p.2 = l.length := by omega
    unfold findLongestMatch
    rw [hs]
    have e1 : p.1 + 1 - runLen l l p.1 p.2 = 0 := by omega
    have e2 : p.2 + 1 - runLen l l p.1 p.2 = 0 := by omega
    have hne : ¬ (p.1, p.2, runLen l l p.1 p.2).2.2 = 0 := by simp only; omega
    rw [if_neg hne, e1, e2, hk]

theorem matchingTotalF_nil_left {α : Type} [DecidableEq α] (fuel : ℕ) (b : List α) :
    matchingTotalF fuel [] b = 0 := by
  cases fuel with
  | zero => rfl
  | succ fuel => simp [matchingTotalF, findLongestMatch, lexPairs]

theorem matchingTotalF_le_left {α : Type} [DecidableEq α] :
    ∀ (fuel : ℕ) (a b : List α), matchingTotalF fuel a b ≤ a.length
  | 0, _, _ => Nat.zero_le _
  | fuel + 1, a, b => by
    simp only [matchingTotalF]
    rcases findLongestMatch_spec a b with h | ⟨i, j, hi, hj, hk, h⟩
    · rw [h]
      simp
    · rw [h]
      have hk1 : runLen a b i j ≤ i + 1 := runLen_le_left a b i j
      have : ¬ runLen a b i j = 0 := by omega
      simp only [this, if_false]
      have h1 := matchingTotalF_le_left fuel (a.take (i + 1 - runLen a b i j)) (b.take (j + 1 - runLen a b i j))
      have h2 := matchingTotalF_le_left fuel (a.drop (i + 1 - runLen a b i j + runLen a b i j)) (b.drop (j + 1 - runLen a b i j + runLen a b i j))
      rw [List.length_take] at h1
      rw [List.length_drop] at h2
      omega

theorem matchingTotalF_le_right {α : Type} [DecidableEq α] :
    ∀ (fuel : ℕ) (a b : List α), matchingTotalF fuel a b ≤ b.length
  | 0, _, _ => Nat.zero_le _
  | fuel + 1, a, b => by
    simp only [matchingTotalF]
    rcases findLongestMatch_spec a b with h | ⟨i, j, hi, hj, hk, h⟩
    · rw [h]
      simp
    · rw [h]
      have hk1 : runLen a b i j ≤ j + 1 := runLen_le_right a b i j
      have : ¬ runLen a b i j = 0 := by omega
      simp only [this, if_false]
      have h1 := matchingTotalF_le_right fuel (a.take (i + 1 - runLen a b i j)) (b.take (j + 1 - runLen a b i j))
      have h2 := matchingTotalF_le_right fuel (a.drop (i + 1 - runLen a b i j + runLen a b i j)) (b.drop (j + 1 - runLen a b i j + runLen a b i j))
      rw [List.length_take] at h1
      rw [List.length_drop] at h2
      omega

theorem matchingTotal_self {α : Type} [DecidableEq α] (l : List α) :
    matchingTotal l l = l.length := by
  by_cases h : l = []
  · subst h
    rfl
  · have hlen : 0 < l.length := List.length_pos.mpr h
    unfold matchingTotal
    simp only [matchingTotalF, findLongestMatch_self l h]
    have : ¬ l.length = 0 := by omega
    simp only [this, if_false]
    simp [List.drop_length, matchingTotalF_nil_left]

theorem ratioTok_eq_div {α : Type} [DecidableEq α] (a b : List α) :
    ratioTok a b =
      if a.length + b.length = 0 then 1
      else 2 * (matchingTotal a b : ℚ) / ((a.length : ℚ) + (b.length : ℚ)) := by
  unfold ratioTok
  split
  · rfl
  · rw [Rat.mkRat_eq_div]
    push_cast
    ring

theorem matchThreshold_eq : matchThreshold = 1 / 4 := by
  unfold matchThreshold
  rw [Rat.mkRat_eq_div]
  norm_num

theorem ratMul_eq (a b : ℚ) : ratMul a b = a * b := by
  unfold ratMul
  rw [Rat.mkRat_eq_div]
  conv_rhs => rw [← Rat.num_div_den a, ← Rat.num_div_den b]
  push_cast
  rw [div_mul_div_comm]

/-- The boosted score in the arithmetic form of the source:
`min(1.0, similarity * 1.1)` for a term-sharing candidate, the raw similarity
otherwise. -/
theorem boostedScore_eq (sim : Clause → Clause → ℚ) (tl : List (ℕ × ℕ)) (c1 : Clause)
    (clauses2 : List Clause) (j : ℕ) :
    boostedScore sim tl c1 clauses2 j =
      if (tl.map Prod.fst).contains j then
        min 1 (sim c1 (clauses2.getD j []) * (11 / 10))
      else sim c1 (clauses2.getD j []) := by
  unfold boostedScore
  simp only [ratMul_eq, Rat.mkRat_eq_div]
  norm_num

theorem ratioTok_self {α : Type} [DecidableEq α] (l : List α) : ratioTok l l = 1 := by
  rw [ratioTok_eq_div]
  by_cases h : l.length + l.length = 0
  · simp [h]
  · simp only [h, if_false, matchingTotal_self]
    have h0 : 0 < l.length := by omega
    have hl : ((l.length : ℚ) + (l.length : ℚ)) ≠ 0 := by
      have : (0 : ℚ) < (l.length : ℚ) := by exact_mod_cast h0
      linarith
    field_simp
    ring

theorem ratioTok_nonneg {α : Type} [DecidableEq α] (a b : List α) : 0 ≤ ratioTok a b := by
  rw [ratioTok_eq_div]
  split
  · norm_num
  · next h =>
    apply div_nonneg
    · positivity
    · positivity

theorem ratioTok_le_one {α : Type} [DecidableEq α] (a b : List α) : ratioTok a b ≤ 1 := by
  rw [ratioTok_eq_div]
  split
  · exact le_refl 1
  · next h =>
    have hpos : (0 : ℚ) < (a.length : ℚ) + (b.length : ℚ) := by
      have h0 : 0 < a.length + b.length := Nat.pos_of_ne_zero h
      exact_mod_cast h0
    rw [div_le_one hpos]
    have h1 : matchingTotal a b ≤ a.length := matchingTotalF_le_left _ a b
    have h2 : matchingTotal a b ≤ b.length := matchingTotalF_le_right _ a b
    have h3 : matchingTotal a b + matchingTotal a b ≤ a.length + b.length := Nat.add_le_add h1 h2
    have h4 : ((matchingTotal a b : ℚ) + (matchingTotal a b : ℚ)) ≤ (a.length : ℚ) + (b.length : ℚ) := by
      exact_mod_cast h3
    linarith

/-! ## Claim theorems: Similarity Scorer (C5) -/

set_option maxRecDepth 8000 in
/-- C5 counterexample: the similarity is not symmetric.  On the ASCII
word/space texts "aa aa aa bb" and "aa bb aa aa aa" (tokenized by the
external tokenizer into word and space tokens, as modelled by `asciiTok`),
the two argument orders give 5/8 and 3/4 — the leftmost-longest matching
block chosen by the scorer depends on the argument order.  The values were
cross-checked against the reference SequenceMatcher. -/
theorem c5_similarity_not_symmetric :
    chinese_text_similarity asciiTok "aa aa aa bb".toList "aa bb aa aa aa".toList ≠
      chinese_text_similarity asciiTok "aa bb aa aa aa".toList "aa aa aa bb".toList := by
  decide

/-- C5 (amended): for every tokenizer and every pair of strings, the
similarity of a non-empty string with itself is 1, and every similarity value
lies in [0, 1]; symmetry, however, fails in general (see the
counterexample). -/
theorem c5_similarity_id_bounds (tok : List Char → List (List Char)) (t1 t2 : List Char) :
    (t1 ≠ [] → chinese_text_similarity tok t1 t1 = 1) ∧
    0 ≤ chinese_text_similarity tok t1 t2 ∧ chinese_text_similarity tok t1 t2 ≤ 1 :=
  ⟨fun _ => ratioTok_self _, ratioTok_nonneg _ _, ratioTok_le_one _ _⟩

/-- C5 witness: the amended theorem applied at the concrete strings "abc"
and "xy". -/
theorem c5_similarity_id_bounds_witness :
    ("abc".toList ≠ ([] : List Char)) ∧
    chinese_text_similarity asciiTok "abc".toList "abc".toList = 1 ∧
    0 ≤ chinese_text_similarity asciiTok "abc".toList "xy".toList ∧
    chinese_text_similarity asciiTok "abc".toList "xy".toList ≤ 1 :=
  ⟨by decide, (c5_similarity_id_bounds asciiTok "abc".toList "xy".toList).1 (by decide),
    (c5_similarity_id_bounds asciiTok "abc".toList "xy".toList).2.1,
    (c5_similarity_id_bounds asciiTok "abc".toList "xy".toList).2.2⟩

/-! ## Claim theorems: Chunker (C3, C4) -/

/-- C3 counterexample: `chunk_large_document("ABCDEFGHIJ", 4, 1)` does not
return the three chunks ["ABCD", "DEFG", "GHIJ"] — the loop appends the chunk
before testing the exit condition, so a fourth degenerate chunk "J" is
emitted. -/
theorem c3_chunk_scenario_counterexample :
    chunk_large_document "ABCDEFGHIJ".toList 4 1 ≠
      some ["ABCD".toList, "DEFG".toList, "GHIJ".toList] := by
  decide

/-- C3 (amended): the call returns the four chunks
["ABCD", "DEFG", "GHIJ", "J"], and dropping the declared 1-character overlap
from every chunk after the first still reconstructs the original text
exactly. -/
theorem c3_chunk_scenario :
    chunk_large_document "ABCDEFGHIJ".toList 4 1 =
      some ["ABCD".toList, "DEFG".toList, "GHIJ".toList, "J".toList] ∧
    "ABCD".toList ++ "DEFG".toList.drop 1 ++ "GHIJ".toList.drop 1 ++ "J".toList.drop 1 =
      "ABCDEFGHIJ".toList := by
  decide

/-- Fuel adequacy of the chunk loop when `overlap < chunk_size`: the loop
terminates with a result within `text.length - start` steps. -/
theorem chunkLoop_terminates (text : List Char) (cs ov : ℤ) (h : ov < cs) :
    ∀ (fuel : ℕ) (start : ℤ) (acc : List (List Char)),
      (text.length : ℤ) - start ≤ fuel →
      ∃ out, chunkLoop text cs ov fuel start acc = some out
  | 0, start, acc, hf => by
    simp only [chunkLoop]
    rw [if_neg (by omega)]
    exact ⟨acc, rfl⟩
  | fuel + 1, start, acc, hf => by
    simp only [chunkLoop]
    by_cases hc : start < (text.length : ℤ)
    · rw [if_pos hc]
      exact chunkLoop_terminates text cs ov h fuel _ _ (by omega)
    · rw [if_neg hc]
      exact ⟨acc, rfl⟩

/-- C4 (amended): `chunk_large_document` performs no parameter validation and
never raises a `ConfigurationError`.  When `chunk_size ≤ overlap` and the
text is non-empty, the loop never terminates: for every fuel budget it is
still running (the window start never advances past 0).  When
`overlap < chunk_size` (including negative overlap) the loop terminates and
returns a chunk list. -/
theorem c4_chunker_no_validation :
    (∀ (text : List Char) (cs ov : ℤ), cs ≤ ov → text ≠ [] →
      ∀ (fuel : ℕ) (start : ℤ) (acc : List (List Char)), start ≤ 0 →
        chunkLoop text cs ov fuel start acc = none) ∧
    (∀ (text : List Char) (cs ov : ℤ), ov < cs →
      ∃ out, chunk_large_document text cs ov = some out) := by
  constructor
  · intro text cs ov hle hne fuel
    have hlen : 0 < text.length := List.length_pos.mpr hne
    induction fuel with
    | zero =>
      intro start acc hs
      simp only [chunkLoop]
      rw [if_pos (by omega)]
    | succ fuel ih =>
      intro start acc hs
      simp only [chunkLoop]
      rw [if_pos (by omega)]
      exact ih _ _ (by omega)
  · intro text cs ov hlt
    exact chunkLoop_terminates text cs ov hlt (text.length + 1) 0 [] (by omega)

/-- C4 witness: the non-terminating branch applied at text "A" with
`chunk_size = overlap = 1` and fuel 7, and a terminating run at text "AB"
with `chunk_size 2`, `overlap 1`. -/
theorem c4_chunker_no_validation_witness :
    chunkLoop "A".toList 1 1 7 0 [] = none ∧
    chunk_large_document "AB".toList 2 1 = some ["AB".toList, "B".toList] :=
  ⟨c4_chunker_no_validation.1 "A".toList 1 1 (le_refl 1) (by decide) 7 0 [] (le_refl 0),
    by decide⟩

/-! ## Lemmas: best-clauses selection -/

theorem selFold_mono (rs : List (List (List Char))) (b : List (List Char)) :
    b.length ≤ (rs.foldl selStep b).length := by
  induction rs generalizing b with
  | nil => exact le_refl _
  | cons r rs ih =>
    rw [List.foldl_cons]
    refine le_trans ?_ (ih (selStep b r))
    unfold selStep
    split
    · next h => exact le_of_lt h.1
    · exact le_refl _

theorem selFold_mem (rs : List (List (List Char))) (b : List (List Char)) :
    rs.foldl selStep b = b ∨ rs.foldl selStep b ∈ rs := by
  induction rs generalizing b with
  | nil => exact Or.inl rfl
  | cons r rs ih =>
    rw [List.foldl_cons]
    rcases ih (selStep b r) with h | h
    · rw [h]
      unfold selStep
      split
      · exact Or.inr (List.mem_cons_self _ _)
      · exact Or.inl rfl
    · exact Or.inr (List.mem_cons_of_mem _ h)

theorem selFold_ge (rs : List (List (List Char))) (b : List (List Char)) :
    ∀ r ∈ rs, 2 < r.length → r.length ≤ (rs.foldl selStep b).length := by
  induction rs generalizing b with
  | nil =>
    intro r h
    exact absurd h (List.not_mem_nil r)
  | cons q rs ih =>
    intro r hr h2
    rw [List.foldl_cons]
    rcases List.mem_cons.mp hr with rfl | hr'
    · refine le_trans ?_ (selFold_mono rs (selStep b r))
      unfold selStep
      split
      · exact le_refl _
      · next h =>
        have h3 : ¬ b.length < r.length := fun hlt => h ⟨hlt, h2⟩
        exact Nat.le_of_not_lt h3
    · exact ih (selStep b q) r hr' h2

theorem selFold_none : ∀ (rs : List (List (List Char))) (b : List (List Char)),
    (∀ r ∈ rs, ¬ 2 < r.length) → rs.foldl selStep b = b
  | [], _, _ => rfl
  | q :: rs, b, h => by
    rw [List.foldl_cons]
    have hq : selStep b q = b := by
      unfold selStep
      rw [if_neg]
      intro hc
      exact h q (List.mem_cons_self _ _) hc.2
    rw [hq]
    exact selFold_none rs b (fun r hr => h r (List.mem_cons_of_mem _ hr))

/-- In pattern mode (some pattern clears the bar), `split_into_clauses`
returns a member of the pattern results that clears the bar and has maximal
clause count. -/
theorem split_pattern_mode (text : List Char)
    (h : ∃ r ∈ patternResults text, 2 < r.length) :
    split_into_clauses text ∈ patternResults text ∧
    2 < (split_into_clauses text).length ∧
    ∀ r ∈ patternResults text, r.length ≤ (split_into_clauses text).length := by
  obtain ⟨r0, hr0, h2⟩ := h
  have hge : r0.length ≤ ((patternResults text).foldl selStep []).length :=
    selFold_ge (patternResults text) [] r0 hr0 h2
  have hbig : 2 < (bestClausesSel (patternResults text)).length := lt_of_lt_of_le h2 hge
  have hne : bestClausesSel (patternResults text) ≠ [] := by
    intro hcon
    rw [hcon] at hbig
    simp at hbig
  have hsplit : split_into_clauses text = bestClausesSel (patternResults text) := by
    unfold split_into_clauses
    rw [if_pos hne]
  rcases selFold_mem (patternResults text) [] with hmem | hmem
  · exact absurd hmem hne
  · refine ⟨?_, ?_, ?_⟩
    · rw [hsplit]
      exact hmem
    · rw [hsplit]
      exact hbig
    · intro r hr
      rw [hsplit]
      by_cases hc : 2 < r.length
      · exact selFold_ge _ [] r hr hc
      · have : r.length ≤ 2 := Nat.le_of_not_lt hc
        omega

/-! ## Claim theorems: Pattern Segmenter (C6) -/

/-- C6: the segmenter is best-of-N, not first-match.  If some pattern's
filtered clause count is strictly greater than 2, the returned sequence is
one of the eight pattern results, itself clears the bar, and its clause count
is maximal among all pattern results; the punctuation/chunk fallback runs
exactly when no pattern clears the bar. -/
theorem c6_best_of_n (text : List Char) :
    ((∃ r ∈ patternResults text, 2 < r.length) →
      split_into_clauses text ∈ patternResults text ∧
      2 < (split_into_clauses text).length ∧
      ∀ r ∈ patternResults text, r.length ≤ (split_into_clauses text).length) ∧
    ((¬ ∃ r ∈ patternResults text, 2 < r.length) →
      split_into_clauses text = paraFallback text) := by
  constructor
  · exact split_pattern_mode text
  · intro h
    push_neg at h
    have hnone : bestClausesSel (patternResults text) = [] :=
      selFold_none _ [] (fun r hr => Nat.not_lt.mpr (h r hr))
    unfold split_into_clauses
    rw [hnone]
    simp

set_option maxRecDepth 4000 in
/-- C6 witness: on a text with three "N."-numbered clauses, the third pattern
clears the bar and its result is returned. -/
theorem c6_best_of_n_witness :
    (∃ r ∈ patternResults "1. aaaaaaaaaaaa 2. bbbbbbbbbbbb 3. cccccccccccc".toList,
      2 < r.length) ∧
    split_into_clauses "1. aaaaaaaaaaaa 2. bbbbbbbbbbbb 3. cccccccccccc".toList ∈
      patternResults "1. aaaaaaaaaaaa 2. bbbbbbbbbbbb 3. cccccccccccc".toList ∧
    2 < (split_into_clauses "1. aaaaaaaaaaaa 2. bbbbbbbbbbbb 3. cccccccccccc".toList).length ∧
    ∀ r ∈ patternResults "1. aaaaaaaaaaaa 2. bbbbbbbbbbbb 3. cccccccccccc".toList,
      r.length ≤ (split_into_clauses "1. aaaaaaaaaaaa 2. bbbbbbbbbbbb 3. cccccccccccc".toList).length :=
  ⟨by decide,
    (c6_best_of_n "1. aaaaaaaaaaaa 2. bbbbbbbbbbbb 3. cccccccccccc".toList).1 (by decide)⟩

/-! ## Lemmas: whitespace-only text -/

theorem ws_not_marker_head (c : Char) (hc : isPySpace c = true) :
    c ≠ '第' ∧ cjkNumChar c = false ∧ c.isDigit = false ∧ c ≠ '(' ∧
    isFwLetter c = false ∧ c ≠ '【' := by
  simp only [isPySpace, Bool.or_eq_true, beq_iff_eq] at hc
  rcases hc with ((((((rfl | rfl) | rfl) | rfl) | rfl) | rfl) | rfl) <;> decide

theorem ws_not_sep (c : Char) (hc : isPySpace c = true) : isSepChar c = false := by
  simp only [isPySpace, Bool.or_eq_true, beq_iff_eq] at hc
  rcases hc with ((((((rfl | rfl) | rfl) | rfl) | rfl) | rfl) | rfl) <;> decide

theorem markerRest_ws (p : Pat) (c : Char) (rest : List Char) (hc : isPySpace c = true) :
    markerRest p (c :: rest) = none := by
  obtain ⟨h1, h2, h3, h4, h5, h6⟩ := ws_not_marker_head c hc
  cases p
  case art => simp only [markerRest]; rw [if_neg h1]
  case cnum =>
    simp only [markerRest, List.takeWhile_cons, h2]
    simp
  case dnum =>
    simp only [markerRest, List.takeWhile_cons, h3]
    simp
  case parenC => simp only [markerRest]; rw [if_neg h4]
  case parenD => simp only [markerRest]; rw [if_neg h4]
  case fwLetter => simp only [markerRest, h5]; simp
  case bracket => simp only [markerRest]; rw [if_neg h6]
  case clauseK => simp only [markerRest]; rw [if_neg h1]

theorem findMarker_allws (p : Pat) :
    ∀ (s : List Char), (∀ c ∈ s, isPySpace c = true) → findMarker p s = none
  | [], _ => rfl
  | c :: rest, h => by
    have hm := markerRest_ws p c rest (h c (List.mem_cons_self _ _))
    have ih := findMarker_allws p rest (fun d hd => h d (List.mem_cons_of_mem _ hd))
    simp only [findMarker, hm, ih]

theorem patternClauses_allws (p : Pat) (text : List Char)
    (h : ∀ c ∈ text, isPySpace c = true) : patternClauses p text = [] := by
  unfold patternClauses patternSegs
  rw [findMarker_allws p text h]
  rfl

theorem patternResults_allws (text : List Char)
    (h : ∀ c ∈ text, isPySpace c = true) :
    ∀ r ∈ patternResults text, r = [] := by
  intro r hr
  obtain ⟨p, _, hp⟩ := List.mem_map.mp hr
  rw [← hp]
  exact patternClauses_allws p text h

theorem splitParaGo_allws :
    ∀ (s : List Char) (fuel : ℕ) (cur : List Char),
      s.length ≤ fuel → (∀ c ∈ s, isPySpace c = true) →
      splitParaGo fuel cur s = [cur.reverse ++ s]
  | [], fuel, cur, _, _ => by
    cases fuel <;> simp [splitParaGo]
  | c :: rest, 0, cur, hf, h => by
    simp at hf
  | c :: rest, fuel + 1, cur, hf, h => by
    have hsep : isSepChar c = false := ws_not_sep c (h c (List.mem_cons_self _ _))
    simp only [splitParaGo, hsep, Bool.false_eq_true, if_false]
    rw [splitParaGo_allws rest fuel (c :: cur) (by simpa using hf)
      (fun d hd => h d (List.mem_cons_of_mem _ hd))]
    simp

theorem pyStrip_allws (s : List Char) (h : ∀ c ∈ s, isPySpace c = true) :
    pyStrip s = [] := by
  unfold pyStrip
  have h1 : s.dropWhile isPySpace = [] := List.dropWhile_eq_nil_iff.mpr h
  rw [h1]
  rfl

theorem paraCandidates_allws (text : List Char)
    (h : ∀ c ∈ text, isPySpace c = true) : paraCandidates text = [] := by
  unfold paraCandidates splitPara
  rw [splitParaGo_allws text (text.length + 1) [] (by omega) h]
  have hcond : ¬ (pyStrip text ≠ [] ∧ 10 < text.length) := by
    intro hc
    exact hc.1 (pyStrip_allws text h)
  simp only [List.reverse_nil, List.nil_append, List.filterMap_cons, List.filterMap_nil]
  rw [if_neg hcond]

/-- Whitespace-only text: no pattern fires and all paragraph candidates are
stripped away, so the result is the fixed-length chunking when the text is
longer than 5000 characters and empty otherwise. -/
theorem split_allws (text : List Char) (h : ∀ c ∈ text, isPySpace c = true) :
    split_into_clauses text =
      if 5000 < text.length then chunkFallback text else [] := by
  have hnone : bestClausesSel (patternResults text) = [] :=
    selFold_none _ [] (fun r hr => by rw [patternResults_allws text h r hr]; simp)
  unfold split_into_clauses
  rw [hnone, if_neg (fun hc => hc rfl)]
  unfold paraFallback
  rw [paraCandidates_allws text h]
  by_cases hlen : 5000 < text.length
  · rw [if_pos ⟨by norm_num, hlen⟩, if_pos hlen]
  · rw [if_neg (fun hc => hlen hc.2), if_neg hlen]

/-! ## Claim theorems: empty and whitespace input (C7) -/

/-- C7 counterexample: a whitespace-only input of 5001 characters does not
produce the empty clause sequence — the text is over the 5000-character
large-document bound with fewer than 3 paragraph candidates, so the
fixed-length chunk fallback emits whitespace chunks. -/
theorem c7_whitespace_counterexample :
    split_into_clauses (List.replicate 5001 ' ') ≠ [] := by
  rw [split_allws (List.replicate 5001 ' ')
    (fun c hc => by rw [(List.eq_of_mem_replicate hc : c = ' ')]; decide)]
  rw [if_pos (by rw [List.length_replicate]; norm_num)]
  unfold chunkFallback
  intro hcon
  rw [List.map_eq_nil_iff, List.range_eq_nil, List.length_replicate] at hcon
  norm_num at hcon

/-- C7 (amended): segmentation of empty or whitespace-only text returns the
empty clause sequence provided the text has at most 5000 characters; beyond
that bound the fixed-length chunk fallback applies instead. -/
theorem c7_whitespace_empty (text : List Char)
    (h : ∀ c ∈ text, isPySpace c = true) (hlen : text.length ≤ 5000) :
    split_into_clauses text = [] := by
  rw [split_allws text h]
  rw [if_neg (by omega)]

/-- C7 witness: the amended theorem applied to the two-space text. -/
theorem c7_whitespace_empty_witness :
    split_into_clauses [' ', ' '] = [] :=
  c7_whitespace_empty [' ', ' '] (by decide) (by decide)

/-! ## Lemmas: strip idempotence -/

theorem dropWhile_idem (p : Char → Bool) :
    ∀ (l : List Char), (l.dropWhile p).dropWhile p = l.dropWhile p
  | [] => rfl
  | c :: rest => by
    by_cases h : p c = true
    · rw [List.dropWhile_cons_of_pos h]
      exact dropWhile_idem p rest
    · rw [List.dropWhile_cons_of_neg h, List.dropWhile_cons_of_neg h]

theorem dropWhile_head_false (p : Char → Bool) :
    ∀ (l : List Char) (c : Char) (t : List Char), l.dropWhile p = c :: t → p c = false
  | [], _, _, h => by simp at h
  | a :: rest, c, t, h => by
    by_cases ha : p a = true
    · rw [List.dropWhile_cons_of_pos ha] at h
      exact dropWhile_head_false p rest c t h
    · rw [List.dropWhile_cons_of_neg ha] at h
      injection h with h1 h2
      subst h1
      simp only [Bool.not_eq_true] at ha
      exact ha

theorem pyStrip_idem (s : List Char) : pyStrip (pyStrip s) = pyStrip s := by
  unfold pyStrip
  set u := s.dropWhile isPySpace with hu
  set m := u.reverse.dropWhile isPySpace with hm
  have hinner : m.reverse.dropWhile isPySpace = m.reverse := by
    cases hcase : m.reverse with
    | nil => rfl
    | cons a t =>
      have hm_ne : m ≠ [] := by
        intro hc
        rw [hc] at hcase
        simp at hcase
      obtain ⟨pre, hpre⟩ := List.dropWhile_suffix (l := u.reverse) isPySpace
      have hlast : m.getLast? = u.reverse.getLast? := by
        rw [← hpre]
        exact (List.getLast?_append_of_ne_nil pre hm_ne).symm
      have hhead : u.head? = some a := by
        rw [← List.getLast?_reverse u, ← hlast, ← List.head?_reverse m, hcase]
        rfl
      have hwa : isPySpace a = false := by
        cases hu2 : u with
        | nil =>
          rw [hu2] at hhead
          simp at hhead
        | cons b t2 =>
          rw [hu2] at hhead
          simp only [List.head?_cons, Option.some.injEq] at hhead
          subst hhead
          exact dropWhile_head_false isPySpace s b t2 (hu.symm.trans hu2)
      rw [List.dropWhile_cons_of_neg (by rw [hwa]; exact Bool.false_ne_true)]
  rw [hinner, List.reverse_reverse]
  have hmidem : m.dropWhile isPySpace = m := by
    rw [hm]
    exact dropWhile_idem _ _
  rw [hmidem]

/-! ## Claim theorems: minimum clause length (C8) -/

set_option maxRecDepth 2000 in
/-- C8 counterexample: the paragraph fallback filters on the unstripped
length but emits the stripped text, so the clause "bbb" (trimmed length 3)
is emitted for a text in which no structural pattern fires. -/
theorem c8_short_fragment_counterexample :
    "bbb".toList ∈ split_into_clauses "aaaaaaaaaaaa。bbb        ".toList ∧
    (pyStrip "bbb".toList).length ≤ 10 := by
  decide

/-- C8 (amended): in pattern mode — whenever some structural pattern clears
the bar — every returned clause has trimmed length strictly greater than 10;
the paragraph and fixed-chunk fallback modes do not guarantee this. -/
theorem c8_min_clause_length (text : List Char)
    (h : ∃ r ∈ patternResults text, 2 < r.length) :
    ∀ c ∈ split_into_clauses text, 10 < (pyStrip c).length := by
  obtain ⟨hmem, _, _⟩ := split_pattern_mode text h
  intro c hc
  obtain ⟨p, _, hp⟩ := List.mem_map.mp hmem
  rw [← hp] at hc
  unfold patternClauses at hc
  obtain ⟨raw, _, hsome⟩ := List.mem_filterMap.mp hc
  by_cases hcond : pyStrip raw ≠ [] ∧ 10 < (pyStrip raw).length
  · rw [if_pos hcond] at hsome
    have hce : pyStrip raw = c := Option.some.inj hsome
    rw [← hce, pyStrip_idem]
    exact hcond.2
  · rw [if_neg hcond] at hsome
    exact absurd hsome (by simp)

set_option maxRecDepth 4000 in
/-- C8 witness: the amended theorem applied to the "N."-numbered text and its
first returned clause. -/
theorem c8_min_clause_length_witness :
    10 < (pyStrip "1. aaaaaaaaaaaa".toList).length :=
  c8_min_clause_length "1. aaaaaaaaaaaa 2. bbbbbbbbbbbb 3. cccccccccccc".toList
    (by decide) "1. aaaaaaaaaaaa".toList (by decide)

/-! ## Lemmas: matcher -/

theorem insertDescSnd_mem (x y : ℕ × ℕ) :
    ∀ (l : List (ℕ × ℕ)), y ∈ insertDescSnd x l ↔ y = x ∨ y ∈ l
  | [] => by simp [insertDescSnd]
  | z :: zs => by
    unfold insertDescSnd
    split
    · simp [List.mem_cons]
    · rw [List.mem_cons, insertDescSnd_mem x y zs, List.mem_cons]
      tauto

theorem sortByOverlapDesc_mem (x : ℕ × ℕ) :
    ∀ (l : List (ℕ × ℕ)), x ∈ sortByOverlapDesc l ↔ x ∈ l
  | [] => Iff.rfl
  | z :: zs => by
    unfold sortByOverlapDesc
    rw [List.foldr_cons, insertDescSnd_mem,
      show zs.foldr insertDescSnd [] = sortByOverlapDesc zs from rfl,
      sortByOverlapDesc_mem x zs, List.mem_cons]

theorem candidates_not_used (tl : List (ℕ × ℕ)) (used : Finset ℕ) (n j : ℕ)
    (h : j ∈ candidates tl used n) : j ∉ used := by
  simp only [candidates] at h
  split at h
  · obtain ⟨_, hj⟩ := List.mem_filter.mp h
    exact of_decide_eq_true hj
  · obtain ⟨_, hj⟩ := List.mem_filter.mp h
    exact of_decide_eq_true hj

theorem candidates_lt (tl : List (ℕ × ℕ)) (used : Finset ℕ) (n j : ℕ)
    (htl : ∀ q ∈ tl, q.1 < n) (h : j ∈ candidates tl used n) : j < n := by
  simp only [candidates] at h
  split at h
  · obtain ⟨hj, _⟩ := List.mem_filter.mp h
    obtain ⟨q, hq, rfl⟩ := List.mem_map.mp hj
    exact htl q ((sortByOverlapDesc_mem q tl).mp hq)
  · obtain ⟨hj, _⟩ := List.mem_filter.mp h
    exact List.mem_range.mp hj

theorem bcFold_fst_le (sim : Clause → Clause → ℚ) (tl : List (ℕ × ℕ)) (c1 : Clause)
    (cl2 : List Clause) :
    ∀ (cands : List ℕ) (st : ℚ × Option ℕ),
      st.1 ≤ (cands.foldl (bcStep sim tl c1 cl2) st).1
  | [], _ => le_refl _
  | j :: js, st => by
    rw [List.foldl_cons]
    refine le_trans ?_ (bcFold_fst_le sim tl c1 cl2 js _)
    simp only [bcStep]
    split
    · next h => exact le_of_lt h
    · exact le_refl _

theorem bcFold_ge (sim : Clause → Clause → ℚ) (tl : List (ℕ × ℕ)) (c1 : Clause)
    (cl2 : List Clause) :
    ∀ (cands : List ℕ) (st : ℚ × Option ℕ) (j : ℕ), j ∈ cands →
      boostedScore sim tl c1 cl2 j ≤ (cands.foldl (bcStep sim tl c1 cl2) st).1
  | [], _, j, h => absurd h (List.not_mem_nil j)
  | q :: js, st, j, h => by
    rw [List.foldl_cons]
    rcases List.mem_cons.mp h with rfl | h'
    · refine le_trans ?_ (bcFold_fst_le sim tl c1 cl2 js _)
      simp only [bcStep]
      split
      · exact le_refl _
      · next hlt => exact le_of_not_lt hlt
    · exact bcFold_ge sim tl c1 cl2 js _ j h'

theorem bcFold_sound (sim : Clause → Clause → ℚ) (tl : List (ℕ × ℕ)) (c1 : Clause)
    (cl2 : List Clause) :
    ∀ (cands : List ℕ) (st : ℚ × Option ℕ),
      cands.foldl (bcStep sim tl c1 cl2) st = st ∨
      ∃ j ∈ cands, (cands.foldl (bcStep sim tl c1 cl2) st).2 = some j ∧
        (cands.foldl (bcStep sim tl c1 cl2) st).1 = boostedScore sim tl c1 cl2 j ∧
        st.1 < (cands.foldl (bcStep sim tl c1 cl2) st).1
  | [], _ => Or.inl rfl
  | q :: js, st => by
    rw [List.foldl_cons]
    rcases bcFold_sound sim tl c1 cl2 js (bcStep sim tl c1 cl2 st q) with h | ⟨j, hj, h1, h2, h3⟩
    · by_cases hlt : st.1 < boostedScore sim tl c1 cl2 q
      · right
        refine ⟨q, List.mem_cons_self q js, ?_, ?_, ?_⟩ <;> rw [h] <;> simp [bcStep, hlt]
      · left
        rw [h]
        simp [bcStep, hlt]
    · right
      refine ⟨j, List.mem_cons_of_mem _ hj, h1, h2, lt_of_le_of_lt ?_ h3⟩
      simp only [bcStep]
      split
      · next h4 => exact le_of_lt h4
      · exact le_refl _

theorem bestCandidate_spec (sim : Clause → Clause → ℚ) (tl : List (ℕ × ℕ)) (c1 : Clause)
    (cl2 : List Clause) (cands : List ℕ) :
    ((bestCandidate sim tl c1 cl2 cands).2 = none ∧
      (bestCandidate sim tl c1 cl2 cands).1 = matchThreshold) ∨
    ∃ j ∈ cands, (bestCandidate sim tl c1 cl2 cands).2 = some j ∧
      (bestCandidate sim tl c1 cl2 cands).1 = boostedScore sim tl c1 cl2 j ∧
      matchThreshold < (bestCandidate sim tl c1 cl2 cands).1 := by
  rcases bcFold_sound sim tl c1 cl2 cands (matchThreshold, none) with hs | ⟨j, hj, h1, h2, h3⟩
  · left
    unfold bestCandidate
    rw [hs]
    exact ⟨rfl, rfl⟩
  · right
    exact ⟨j, hj, h1, h2, h3⟩

theorem bestCandidate_le (sim : Clause → Clause → ℚ) (tl : List (ℕ × ℕ)) (c1 : Clause)
    (cl2 : List Clause) (cands : List ℕ) (j : ℕ) (h : j ∈ cands) :
    boostedScore sim tl c1 cl2 j ≤ (bestCandidate sim tl c1 cl2 cands).1 :=
  bcFold_ge sim tl c1 cl2 cands (matchThreshold, none) j h

theorem matchStep_cases (sim : Clause → Clause → ℚ) (cl2 : List Clause) (tl : List (ℕ × ℕ))
    (st : List MPair × Finset ℕ) (ic : ℕ × Clause) :
    matchStep sim cl2 tl st ic = st ∨
    ∃ j, j ∈ candidates tl st.2 cl2.length ∧
      matchStep sim cl2 tl st ic =
        (st.1 ++ [⟨ic.1, ic.2, j, cl2.getD j [],
          (bestCandidate sim tl ic.2 cl2 (candidates tl st.2 cl2.length)).1⟩],
          insert j st.2) := by
  rcases bestCandidate_spec sim tl ic.2 cl2 (candidates tl st.2 cl2.length) with
    ⟨hn, _⟩ | ⟨j, hj, hsome, _, _⟩
  · left
    simp only [matchStep]
    rw [hn]
  · by_cases hne : cl2.getD j [] ≠ []
    · right
      refine ⟨j, hj, ?_⟩
      simp only [matchStep]
      rw [hsome]
      exact if_pos hne
    · left
      simp only [matchStep]
      rw [hsome]
      exact if_neg hne

theorem getD_mem_of_lt : ∀ (l : List Clause) (j : ℕ), j < l.length → l.getD j [] ∈ l
  | [], j, h => absurd h (by simp)
  | a :: t, 0, _ => List.mem_cons_self _ _
  | a :: t, j + 1, h =>
    List.mem_cons_of_mem _ (getD_mem_of_lt t j (by simpa using h))

theorem matchFold_inv (sim : Clause → Clause → ℚ) (cl2 : List Clause)
    (f : ℕ × Clause → List (ℕ × ℕ)) :
    ∀ (l : List Clause) (k : ℕ) (st : List MPair × Finset ℕ),
      (∀ p ∈ st.1, p.li < k) → (∀ p ∈ st.1, p.rj ∈ st.2) →
      (st.1.map MPair.li).Nodup → (st.1.map MPair.rj).Nodup →
      (∀ p ∈ ((List.enumFrom k l).foldl (fun s ic => matchStep sim cl2 (f ic) s ic) st).1,
          p.li < k + l.length) ∧
      (∀ p ∈ ((List.enumFrom k l).foldl (fun s ic => matchStep sim cl2 (f ic) s ic) st).1,
          p.rj ∈ ((List.enumFrom k l).foldl (fun s ic => matchStep sim cl2 (f ic) s ic) st).2) ∧
      ((((List.enumFrom k l).foldl (fun s ic => matchStep sim cl2 (f ic) s ic) st).1.map
          MPair.li).Nodup) ∧
      ((((List.enumFrom k l).foldl (fun s ic => matchStep sim cl2 (f ic) s ic) st).1.map
          MPair.rj).Nodup)
  | [], k, st, h1, h2, h3, h4 => ⟨fun p hp => by simpa using h1 p hp, h2, h3, h4⟩
  | c :: t, k, st, h1, h2, h3, h4 => by
    have hcons : List.enumFrom k (c :: t) = (k, c) :: List.enumFrom (k + 1) t := rfl
    rw [hcons, List.foldl_cons]
    have hmain :
        ∀ st' : List MPair × Finset ℕ,
          matchStep sim cl2 (f (k, c)) st (k, c) = st' →
          (∀ p ∈ st'.1, p.li < k + 1) ∧ (∀ p ∈ st'.1, p.rj ∈ st'.2) ∧
          (st'.1.map MPair.li).Nodup ∧ (st'.1.map MPair.rj).Nodup := by
      intro st' hst'
      rcases matchStep_cases sim cl2 (f (k, c)) st (k, c) with heq | ⟨j, hjc, heq⟩
      · rw [hst'] at heq
        subst heq
        exact ⟨fun p hp => lt_trans (h1 p hp) (by omega), h2, h3, h4⟩
      · rw [hst'] at heq
        subst heq
        have hnu : j ∉ st.2 := candidates_not_used _ _ _ _ hjc
        refine ⟨?_, ?_, ?_, ?_⟩
        · intro p hp
          rcases List.mem_append.mp hp with hp' | hp'
          · exact lt_trans (h1 p hp') (by omega)
          · rw [List.mem_singleton.mp hp']
            exact Nat.lt_succ_self k
        · intro p hp
          rcases List.mem_append.mp hp with hp' | hp'
          · exact Finset.mem_insert_of_mem (h2 p hp')
          · rw [List.mem_singleton.mp hp']
            exact Finset.mem_insert_self j st.2
        · rw [List.map_append]
          refine List.Nodup.append h3 (List.nodup_singleton _) ?_
          intro x hx hx'
          obtain ⟨p, hp, hpx⟩ := List.mem_map.mp hx
          have hxk : x = k := List.mem_singleton.mp hx'
          have hlt := h1 p hp
          rw [hpx, hxk] at hlt
          exact absurd hlt (lt_irrefl k)
        · rw [List.map_append]
          refine List.Nodup.append h4 (List.nodup_singleton _) ?_
          intro x hx hx'
          obtain ⟨p, hp, hpx⟩ := List.mem_map.mp hx
          have hxj : x = j := List.mem_singleton.mp hx'
          have hin := h2 p hp
          rw [hpx, hxj] at hin
          exact hnu hin
    obtain ⟨g1, g2, g3, g4⟩ := hmain _ rfl
    obtain ⟨r1, r2, r3, r4⟩ :=
      matchFold_inv sim cl2 f t (k + 1) (matchStep sim cl2 (f (k, c)) st (k, c)) g1 g2 g3 g4
    refine ⟨fun p hp => ?_, r2, r3, r4⟩
    have hb := r1 p hp
    simp only [List.length_cons]
    omega

theorem enumFrom_filter_ge (n : ℕ) :
    ∀ (l : List Clause) (k : ℕ),
      (((List.enumFrom k l).filter (fun pr => decide (¬ pr.1 < n))).map Prod.snd) =
        l.drop (n - k)
  | [], k => by simp
  | c :: t, k => by
    have hcons : List.enumFrom k (c :: t) = (k, c) :: List.enumFrom (k + 1) t := rfl
    rw [hcons]
    by_cases hk : k < n
    · rw [List.filter_cons_of_neg (by simp [hk])]
      rw [enumFrom_filter_ge n t (k + 1)]
      rw [show n - k = (n - (k + 1)) + 1 by omega, List.drop_succ_cons]
    · rw [List.filter_cons_of_pos (by simp [hk])]
      rw [List.map_cons, enumFrom_filter_ge n t (k + 1)]
      rw [show n - (k + 1) = 0 by omega, show n - k = 0 by omega]
      rfl

/-! ## Claim theorems: Matcher (C1, C2, C9, C10) -/

/-- C2: at-most-one-match — in any run the recorded pairs carry pairwise
distinct left indices and pairwise distinct right indices. -/
theorem c2_at_most_one_match (sim : Clause → Clause → ℚ) (clauses1 clauses2 : List Clause) :
    ((match_clauses sim clauses1 clauses2).1.map MPair.li).Nodup ∧
    ((match_clauses sim clauses1 clauses2).1.map MPair.rj).Nodup := by
  simp only [match_clauses]
  obtain ⟨_, _, r3, r4⟩ :=
    matchFold_inv sim clauses2
      (fun ic => termOverlapList ((clauses1.map extract_key_terms).getD ic.1 ∅)
        (clauses2.map extract_key_terms))
      clauses1 0 ([], ∅) (by simp) (by simp) (by simp) (by simp)
  exact ⟨r3, r4⟩

/-- C10: the unmatched-left output is the positional suffix — exactly the
left clauses from index `len(matched_pairs)` on, independent of which left
clauses actually matched. -/
theorem c10_unmatched_left_positional (sim : Clause → Clause → ℚ)
    (clauses1 clauses2 : List Clause) :
    (match_clauses sim clauses1 clauses2).2.1 =
      clauses1.drop (match_clauses sim clauses1 clauses2).1.length := by
  simp only [match_clauses, List.enum_map_fst]
  simp only [List.mem_range, decide_not]
  have h := enumFrom_filter_ge
    ((clauses1.enum.foldl
      (fun st ic => matchStep sim clauses2
        (termOverlapList ((clauses1.map extract_key_terms).getD ic.1 ∅)
          (clauses2.map extract_key_terms)) st ic)
      ([], ∅)).1.length) clauses1 0
  rw [Nat.sub_zero] at h
  simp only [decide_not] at h
  exact h

theorem termOverlapList_lt (t1 : Finset Clause) (terms2 : List (Finset Clause)) :
    ∀ q ∈ termOverlapList t1 terms2, q.1 < terms2.length := by
  intro q hq
  unfold termOverlapList at hq
  obtain ⟨j, hj, hsome⟩ := List.mem_filterMap.mp hq
  rw [List.mem_range] at hj
  by_cases hov : 0 < (t1 ∩ terms2.getD j ∅).card
  · rw [if_pos hov] at hsome
    obtain rfl := Option.some.inj hsome
    exact hj
  · rw [if_neg hov] at hsome
    exact absurd hsome (by simp)

/-- C9 (amended): provided every right clause is a non-empty string, one left
clause `(i, c1)` records a pair exactly when some candidate's boosted score
strictly exceeds the 0.25 threshold (where a candidate sharing at least one
extracted term is boosted to `min(1.0, similarity * 1.1)` and any other
candidate keeps its raw similarity, see `boostedScore` and
`boostedScore_eq`); without the non-emptiness condition the truthiness guard
on the best match can drop a pair above the threshold (see the
counterexample). -/
theorem c9_threshold_boost (sim : Clause → Clause → ℚ) (clauses2 : List Clause)
    (st : List MPair × Finset ℕ) (ic : ℕ × Clause)
    (hR : ∀ c ∈ clauses2, c ≠ []) :
    ((matchStep sim clauses2
        (termOverlapList (extract_key_terms ic.2) (clauses2.map extract_key_terms))
        st ic).1.length = st.1.length + 1) ↔
    ∃ j ∈ candidates
        (termOverlapList (extract_key_terms ic.2) (clauses2.map extract_key_terms))
        st.2 clauses2.length,
      matchThreshold < boostedScore sim
        (termOverlapList (extract_key_terms ic.2) (clauses2.map extract_key_terms))
        ic.2 clauses2 j := by
  set tl := termOverlapList (extract_key_terms ic.2) (clauses2.map extract_key_terms) with htl
  have htl_lt : ∀ q ∈ tl, q.1 < clauses2.length := by
    intro q hq
    have := termOverlapList_lt (extract_key_terms ic.2) (clauses2.map extract_key_terms) q
      (htl ▸ hq)
    rwa [List.length_map] at this
  constructor
  · intro hlen
    rcases bestCandidate_spec sim tl ic.2 clauses2 (candidates tl st.2 clauses2.length) with
      ⟨hn, _⟩ | ⟨j, hj, _, hval, hgt⟩
    · have hstep : matchStep sim clauses2 tl st ic = st := by
        simp only [matchStep]
        rw [hn]
      rw [hstep] at hlen
      omega
    · exact ⟨j, hj, by rw [← hval]; exact hgt⟩
  · rintro ⟨j, hj, hgt⟩
    rcases bestCandidate_spec sim tl ic.2 clauses2 (candidates tl st.2 clauses2.length) with
      ⟨_, hval⟩ | ⟨j', hj', hsome, _, _⟩
    · have hle := bestCandidate_le sim tl ic.2 clauses2 _ j hj
      rw [hval] at hle
      exact absurd hgt (not_lt.mpr hle)
    · have hlt : j' < clauses2.length := candidates_lt tl st.2 clauses2.length j' htl_lt hj'
      have hne : clauses2.getD j' [] ≠ [] := hR _ (getD_mem_of_lt clauses2 j' hlt)
      have hstep : matchStep sim clauses2 tl st ic =
          (st.1 ++ [⟨ic.1, ic.2, j', clauses2.getD j' [],
            (bestCandidate sim tl ic.2 clauses2 (candidates tl st.2 clauses2.length)).1⟩],
            insert j' st.2) := by
        simp only [matchStep]
        rw [hsome]
        exact if_pos hne
      rw [hstep]
      simp

/-- C9 counterexample: with an empty left clause and an empty right clause
the sole candidate's boosted score is 1 (similarity of two empty token
sequences), strictly above the 0.25 threshold, yet no pair is recorded — the
source guards the record step with the truthiness of the best match string,
which is falsy for the empty string. -/
theorem c9_truthiness_counterexample :
    matchThreshold < boostedScore simModel
      (termOverlapList (extract_key_terms []) ([([] : Clause)].map extract_key_terms))
      [] [([] : Clause)] 0 ∧
    0 ∈ candidates
      (termOverlapList (extract_key_terms []) ([([] : Clause)].map extract_key_terms))
      ∅ [([] : Clause)].length ∧
    (match_clauses simModel [([] : Clause)] [([] : Clause)]).1 = [] := by
  decide

/-- C9 witness: the amended theorem applied to the singleton run matching a
12-character clause against itself from the initial state. -/
theorem c9_threshold_boost_witness :
    ((matchStep simModel [List.replicate 12 'b']
        (termOverlapList (extract_key_terms (List.replicate 12 'b'))
          ([List.replicate 12 'b'].map extract_key_terms))
        ([], ∅) (0, List.replicate 12 'b')).1.length = ([] : List MPair).length + 1) ↔
    ∃ j ∈ candidates
        (termOverlapList (extract_key_terms (List.replicate 12 'b'))
          ([List.replicate 12 'b'].map extract_key_terms))
        (∅ : Finset ℕ) [List.replicate 12 'b'].length,
      matchThreshold < boostedScore simModel
        (termOverlapList (extract_key_terms (List.replicate 12 'b'))
          ([List.replicate 12 'b'].map extract_key_terms))
        (List.replicate 12 'b') [List.replicate 12 'b'] j :=
  c9_threshold_boost simModel [List.replicate 12 'b'] ([], ∅)
    (0, List.replicate 12 'b') (by decide)

set_option maxRecDepth 4000 in
/-- C1: concrete run showing the completeness violation.  With left clauses
["aaaa…a", "bbbb…b"] (12 characters each) and right clause ["bbbb…b"], the
first left clause scores 0 and stays unmatched while the second matches with
score 1; the source then computes unmatched-left from the positions
`range(len(matched_pairs))`, so the run returns unmatched-left =
["bbbb…b"]: the unmatched first clause is lost and the matched second clause
appears both as a matched left clause and in unmatched-left. -/
theorem c1_completeness_failure :
    match_clauses simModel [List.replicate 12 'a', List.replicate 12 'b']
      [List.replicate 12 'b'] =
      ([⟨1, List.replicate 12 'b', 0, List.replicate 12 'b', 1⟩],
        [List.replicate 12 'b'], []) := by
  decide

/-- C4 counterexample: `chunk_large_document("A", 1, 1)` neither raises a
`ConfigurationError` (no such check exists) nor returns a result — the loop
is still running when the canonical fuel budget is exhausted. -/
theorem c4_chunker_counterexample :
    chunk_large_document "A".toList 1 1 = none := by
  decide
